import Mathlib

/-!
Verification of the CPU scheduling simulator (`src/os1.py`).

The embedding models the `Process` record and the five scheduler classes
(`FCFS`, `SJF`, `Priority`, `RoundRobin`, `SRTF`) together with the two
metrics functions.  Python integers are modelled by `Int`; the fields that
start out as `None` (`priority`, `start_time`, `completion_time`) are
modelled by `Option Int`.  Each scheduler's `run` method mutates the jobs
and appends them to `completed_processes`; here each run is a function
returning that completed list.  Loops over a shrinking work list are
translated with an explicit fuel parameter so that every definition is
executable by kernel reduction; the fuel chosen for each `run` is proved
(or, for `RoundRobin`, can fail to be) adequate.
-/

/-- The `Process` record of `os1.py` (lines 8-18): identifier, arrival
time, burst (service) time, optional priority, and the two fields written
by a scheduler run, which start out as `None`. -/
structure Process where
  process_id : Int
  arrival_time : Int
  burst_time : Int
  priority : Option Int := none
  start_time : Option Int := none
  completion_time : Option Int := none
deriving DecidableEq, Repr

/-- The clock clamp shared by every scheduler
(`if current_time < process.arrival_time: current_time = process.arrival_time`). -/
def clampClock (t a : Int) : Int := if t < a then a else t

theorem clampClock_eq_max (t a : Int) : clampClock t a = max t a := by
  unfold clampClock
  rcases lt_or_ge t a with h | h
  · simp [h, max_eq_right h.le]
  · simp [not_lt.mpr h, max_eq_left h]

theorem le_clampClock_right (t a : Int) : a ≤ clampClock t a := by
  rw [clampClock_eq_max]; exact le_max_right t a

namespace FCFS

/-- `FCFS.run` (`os1.py` lines 34-43): walk the input list in order,
clamp the clock to the arrival time, set start time, advance the clock by
the burst time, set completion time, append to the completed list. -/
def runAux (t : Int) : List Process → List Process
  | [] => []
  | p :: rest =>
    let t1 := clampClock t p.arrival_time
    { p with start_time := some t1,
             completion_time := some (t1 + p.burst_time) }
      :: runAux (t1 + p.burst_time) rest

/-- `FCFS.run` starting from clock 0 (line 36: `current_time = 0`). -/
def run (ps : List Process) : List Process := runAux 0 ps

end FCFS

/-- Spec-side recurrence for FCFS timings: each job's start time is
`max (previous completion time) (its arrival time)` and its completion
time is start plus burst, threading the clock. -/
def followsFCFS : Int → List Process → Prop
  | _, [] => True
  | c, p :: rest =>
    ∃ s, p.start_time = some s ∧ s = max c p.arrival_time ∧
      p.completion_time = some (s + p.burst_time) ∧
      followsFCFS (s + p.burst_time) rest

theorem fcfs_runAux_ids (t : Int) (ps : List Process) :
    (FCFS.runAux t ps).map Process.process_id = ps.map Process.process_id := by
  induction ps generalizing t with
  | nil => rfl
  | cons p rest ih => simp [FCFS.runAux, ih]

theorem fcfs_runAux_follows (t : Int) (ps : List Process) :
    followsFCFS t (FCFS.runAux t ps) := by
  induction ps generalizing t with
  | nil => trivial
  | cons p rest ih =>
    refine ⟨clampClock t p.arrival_time, rfl, (clampClock_eq_max _ _), rfl, ?_⟩
    exact ih _

/-- The SJF/SRTF sort order of `os1.py` line 51 and line 104:
`key=lambda x: (x.burst_time, x.arrival_time)`, i.e. the lexicographic
order on (burst time, arrival time). -/
def sjfR (a b : Process) : Prop :=
  a.burst_time < b.burst_time ∨
    (a.burst_time = b.burst_time ∧ a.arrival_time ≤ b.arrival_time)

instance : DecidableRel sjfR := fun a b => by unfold sjfR; exact inferInstance

instance : IsTotal Process sjfR := ⟨by intro a b; unfold sjfR; omega⟩

instance : IsTrans Process sjfR := ⟨by intro a b c; unfold sjfR; omega⟩

namespace SJF

/-- `SJF.run` (`os1.py` lines 46-58): repeatedly stable-sort the remaining
jobs by (burst time, arrival time), pop the front, clamp the clock to its
arrival, run it to completion.  Python's stable `list.sort` on a key is
modelled by `List.insertionSort`, which is stable for the induced total
preorder.  The loop consumes one job per iteration, so fuel `ps.length`
is exact. -/
def runAux : Nat → Int → List Process → List Process
  | 0, _, _ => []
  | fuel + 1, t, rem =>
    match List.insertionSort sjfR rem with
    | [] => []
    | p :: rest =>
      let t1 := clampClock t p.arrival_time
      { p with start_time := some t1,
               completion_time := some (t1 + p.burst_time) }
        :: runAux fuel (t1 + p.burst_time) rest

def run (ps : List Process) : List Process := runAux ps.length 0 ps

end SJF

/-- The Priority sort order of `os1.py` line 66:
`key=lambda x: (x.priority, x.arrival_time)` on the cases Python can
compare: two present priorities compare lexicographically; two absent
priorities (`None == None`) fall through to the arrival times.  A mixed
comparison raises `TypeError` in Python and never reaches this relation
(see `Priority.run`). -/
def prioLeB (a b : Process) : Bool :=
  match a.priority, b.priority with
  | some x, some y => decide (x < y ∨ (x = y ∧ a.arrival_time ≤ b.arrival_time))
  | none, none => decide (a.arrival_time ≤ b.arrival_time)
  | _, _ => true

def prioR (a b : Process) : Prop := prioLeB a b = true

instance : DecidableRel prioR := fun a b =>
  inferInstanceAs (Decidable (prioLeB a b = true))

namespace Priority

/-- Loop body of `Priority.run` (`os1.py` lines 61-73), structurally the
same as SJF but sorting by (priority, arrival time). -/
def runAux : Nat → Int → List Process → List Process
  | 0, _, _ => []
  | fuel + 1, t, rem =>
    match List.insertionSort prioR rem with
    | [] => []
    | p :: rest =>
      let t1 := clampClock t p.arrival_time
      { p with start_time := some t1,
               completion_time := some (t1 + p.burst_time) }
        :: runAux fuel (t1 + p.burst_time) rest

/-- `Priority.run`.  Sorting a list that holds both a present and an
absent priority makes Python compare `None` with an `int` and raise
`TypeError` (any such list forces at least one mixed comparison); this is
modelled by `none`.  A homogeneous list sorts without error. -/
def run (ps : List Process) : Option (List Process) :=
  if (ps.any fun p => p.priority.isSome) && (ps.any fun p => p.priority.isNone)
  then none
  else some (runAux ps.length 0 ps)

end Priority

namespace RoundRobin

/-- Loop body of `RoundRobin.run` (`os1.py` lines 81-96): pop the front of
the FIFO, clamp the clock to its arrival, unconditionally overwrite its
start time with the clock, then either serve one quantum and requeue
(burst time > quantum) or serve the remainder and complete the job.
The Python loop diverges when the quantum is not positive, so the fuel
parameter is explicit and exhaustion returns `none`. -/
def runAux (q : Int) : Nat → Int → List Process → List Process → Option (List Process)
  | _, _, [], comp => some comp
  | 0, _, _ :: _, _ => none
  | fuel + 1, t, p :: rest, comp =>
    let t1 := clampClock t p.arrival_time
    if q < p.burst_time then
      runAux q fuel (t1 + q)
        (rest ++ [{ p with start_time := some t1, burst_time := p.burst_time - q }]) comp
    else
      let done : Process :=
        { p with start_time := some t1,
                 completion_time := some (t1 + p.burst_time) }
      runAux q fuel (t1 + p.burst_time) rest (comp ++ [done])

/-- Fuel that is adequate whenever the quantum is positive: each
iteration either completes a job or lowers its positive burst time by the
quantum. -/
def fuelFor (ps : List Process) : Nat :=
  ps.length + (ps.map fun p => p.burst_time.toNat).sum + 1

def run (q : Int) (ps : List Process) : Option (List Process) :=
  runAux q (fuelFor ps) 0 ps []

end RoundRobin

namespace SRTF

/-- `SRTF.run` (`os1.py` lines 99-115): stable-sort the remaining jobs by
(burst time, arrival time), run the front one to completion, then subtract
its burst from every remaining job that has arrived by the new clock and
drop the jobs whose burst is no longer positive.  At least the front job
leaves the list each iteration, so fuel `ps.length` is adequate. -/
def runAux : Nat → Int → List Process → List Process
  | 0, _, _ => []
  | fuel + 1, t, rem =>
    match List.insertionSort sjfR rem with
    | [] => []
    | p :: rest =>
      let t1 := clampClock t p.arrival_time
      let fin := t1 + p.burst_time
      let rest2 := rest.map fun r =>
        if r.arrival_time ≤ fin
        then { r with burst_time := r.burst_time - p.burst_time } else r
      { p with start_time := some t1, completion_time := some fin }
        :: runAux fuel fin (rest2.filter fun r => 0 < r.burst_time)

def run (ps : List Process) : List Process := runAux ps.length 0 ps

end SRTF

/-- `calculate_average_waiting_time` (`os1.py` lines 118-119):
`sum(p.start_time - p.arrival_time) / len(processes)`.  An empty list
raises `ZeroDivisionError` and an unset start time raises `TypeError`;
both are modelled by `none`.  Python's real division is modelled exactly
over `ℚ`. -/
def calculate_average_waiting_time (ps : List Process) : Option ℚ :=
  match ps with
  | [] => none
  | _ :: _ =>
    ((ps.mapM fun p : Process =>
        p.start_time.map fun s => ((s - p.arrival_time : Int) : ℚ)) :
      Option (List ℚ)).map fun ws => ws.sum / (ps.length : ℚ)

/-- `calculate_average_turnaround_time` (`os1.py` lines 122-123):
`sum(p.completion_time - p.arrival_time) / len(processes)`, with the same
failure modes as the waiting-time average. -/
def calculate_average_turnaround_time (ps : List Process) : Option ℚ :=
  match ps with
  | [] => none
  | _ :: _ =>
    ((ps.mapM fun p : Process =>
        p.completion_time.map fun c => ((c - p.arrival_time : Int) : ℚ)) :
      Option (List ℚ)).map fun ws => ws.sum / (ps.length : ℚ)

/-- Forget the two fields a scheduler run writes, keeping the static
ones; used to state that a run only annotates jobs. -/
def eraseTimes (p : Process) : Process :=
  { p with start_time := none, completion_time := none }

theorem eraseTimes_process_id (p : Process) :
    (eraseTimes p).process_id = p.process_id := rfl

theorem ids_of_eraseTimes_perm {l1 l2 : List Process}
    (h : (l1.map eraseTimes).Perm (l2.map eraseTimes)) :
    (l1.map Process.process_id).Perm (l2.map Process.process_id) := by
  have h2 := h.map Process.process_id
  simpa [List.map_map, Function.comp_def, eraseTimes_process_id] using h2

theorem fcfs_runAux_mem (t : Int) (ps : List Process) :
    ∀ p' ∈ FCFS.runAux t ps, ∃ p ∈ ps, ∃ s,
      p' = { p with start_time := some s,
                    completion_time := some (s + p.burst_time) } ∧
      p.arrival_time ≤ s := by
  induction ps generalizing t with
  | nil => intro p' hp'; simp [FCFS.runAux] at hp'
  | cons p rest ih =>
    intro p' hp'
    rcases List.mem_cons.mp hp' with rfl | hmem
    · exact ⟨p, List.mem_cons_self p rest, clampClock t p.arrival_time, rfl,
        le_clampClock_right _ _⟩
    · obtain ⟨p0, hp0, s, rfl, hs⟩ := ih _ p' hmem
      exact ⟨p0, List.mem_cons_of_mem _ hp0, s, rfl, hs⟩

theorem sjf_runAux_mem : ∀ (fuel : Nat) (t : Int) (rem : List Process),
    rem.length ≤ fuel → ∀ p' ∈ SJF.runAux fuel t rem, ∃ p ∈ rem, ∃ s,
      p' = { p with start_time := some s,
                    completion_time := some (s + p.burst_time) } ∧
      p.arrival_time ≤ s := by
  intro fuel
  induction fuel with
  | zero => intro t rem _ p' hp'; simp [SJF.runAux] at hp'
  | succ fuel ih =>
    intro t rem hlen p' hp'
    rw [SJF.runAux] at hp'
    cases h : List.insertionSort sjfR rem with
    | nil => rw [h] at hp'; simp at hp'
    | cons p rest =>
      rw [h] at hp'
      have hsort : rem.length = rest.length + 1 := by
        have hl := congrArg List.length h
        rwa [List.length_insertionSort, List.length_cons] at hl
      rcases List.mem_cons.mp hp' with rfl | hmem
      · refine ⟨p, ?_, clampClock t p.arrival_time, rfl, le_clampClock_right _ _⟩
        exact (List.perm_insertionSort sjfR rem).mem_iff.mp
          (h ▸ List.mem_cons_self p rest)
      · obtain ⟨p0, hp0, s, rfl, hs⟩ := ih _ rest (by omega) p' hmem
        refine ⟨p0, ?_, s, rfl, hs⟩
        exact (List.perm_insertionSort sjfR rem).mem_iff.mp
          (h ▸ List.mem_cons_of_mem _ hp0)

theorem sjf_runAux_perm : ∀ (fuel : Nat) (t : Int) (rem : List Process),
    rem.length ≤ fuel →
    ((SJF.runAux fuel t rem).map eraseTimes).Perm (rem.map eraseTimes) := by
  intro fuel
  induction fuel with
  | zero =>
    intro t rem hlen
    rw [List.length_eq_zero.mp (Nat.le_zero.mp hlen)]
    simp [SJF.runAux]
  | succ fuel ih =>
    intro t rem hlen
    rw [SJF.runAux]
    cases h : List.insertionSort sjfR rem with
    | nil =>
      have : rem = [] := by
        have h0 := List.perm_insertionSort sjfR rem
        rw [h] at h0
        exact List.Perm.eq_nil h0.symm
      simp [this]
    | cons p rest =>
      have hsort : rem.length = rest.length + 1 := by
        have hl := congrArg List.length h
        rwa [List.length_insertionSort, List.length_cons] at hl
      have hperm : (List.map eraseTimes (p :: rest)).Perm (rem.map eraseTimes) :=
        (h ▸ (List.perm_insertionSort sjfR rem)).map eraseTimes
      refine List.Perm.trans ?_ hperm
      simp only [List.map_cons]
      exact List.Perm.cons _ (ih _ rest (by omega))

theorem prio_runAux_mem : ∀ (fuel : Nat) (t : Int) (rem : List Process),
    rem.length ≤ fuel → ∀ p' ∈ Priority.runAux fuel t rem, ∃ p ∈ rem, ∃ s,
      p' = { p with start_time := some s,
                    completion_time := some (s + p.burst_time) } ∧
      p.arrival_time ≤ s := by
  intro fuel
  induction fuel with
  | zero => intro t rem _ p' hp'; simp [Priority.runAux] at hp'
  | succ fuel ih =>
    intro t rem hlen p' hp'
    rw [Priority.runAux] at hp'
    cases h : List.insertionSort prioR rem with
    | nil => rw [h] at hp'; simp at hp'
    | cons p rest =>
      rw [h] at hp'
      have hsort : rem.length = rest.length + 1 := by
        have hl := congrArg List.length h
        rwa [List.length_insertionSort, List.length_cons] at hl
      rcases List.mem_cons.mp hp' with rfl | hmem
      · refine ⟨p, ?_, clampClock t p.arrival_time, rfl, le_clampClock_right _ _⟩
        exact (List.perm_insertionSort prioR rem).mem_iff.mp
          (h ▸ List.mem_cons_self p rest)
      · obtain ⟨p0, hp0, s, rfl, hs⟩ := ih _ rest (by omega) p' hmem
        refine ⟨p0, ?_, s, rfl, hs⟩
        exact (List.perm_insertionSort prioR rem).mem_iff.mp
          (h ▸ List.mem_cons_of_mem _ hp0)

theorem prio_runAux_perm : ∀ (fuel : Nat) (t : Int) (rem : List Process),
    rem.length ≤ fuel →
    ((Priority.runAux fuel t rem).map eraseTimes).Perm (rem.map eraseTimes) := by
  intro fuel
  induction fuel with
  | zero =>
    intro t rem hlen
    rw [List.length_eq_zero.mp (Nat.le_zero.mp hlen)]
    simp [Priority.runAux]
  | succ fuel ih =>
    intro t rem hlen
    rw [Priority.runAux]
    cases h : List.insertionSort prioR rem with
    | nil =>
      have : rem = [] := by
        have h0 := List.perm_insertionSort prioR rem
        rw [h] at h0
        exact List.Perm.eq_nil h0.symm
      simp [this]
    | cons p rest =>
      have hsort : rem.length = rest.length + 1 := by
        have hl := congrArg List.length h
        rwa [List.length_insertionSort, List.length_cons] at hl
      have hperm : (List.map eraseTimes (p :: rest)).Perm (rem.map eraseTimes) :=
        (h ▸ (List.perm_insertionSort prioR rem)).map eraseTimes
      refine List.Perm.trans ?_ hperm
      simp only [List.map_cons]
      exact List.Perm.cons _ (ih _ rest (by omega))

theorem sjf_sorted_head_min (rem : List Process) (p : Process)
    (rest : List Process) (h : List.insertionSort sjfR rem = p :: rest) :
    ∀ x ∈ rem, sjfR p x := by
  intro x hx
  have hx2 : x ∈ p :: rest :=
    h ▸ (List.perm_insertionSort sjfR rem).symm.subset hx
  rcases List.mem_cons.mp hx2 with rfl | hx3
  · exact Or.inr ⟨rfl, le_refl _⟩
  · have hsorted := List.sorted_insertionSort sjfR rem
    rw [h] at hsorted
    exact List.rel_of_sorted_cons hsorted x hx3

/-- What `RoundRobin.run` records on a job it completes, given positive
quantum and positive initial burst times: the start time written at the
final dispatch, completion equal to that start plus the residual burst,
and a residual burst that is still positive (the code never zeroes it)
and at most the quantum. -/
def rrDone (q : Int) (p : Process) : Prop :=
  ∃ s, p.start_time = some s ∧ p.completion_time = some (s + p.burst_time) ∧
    p.arrival_time ≤ s ∧ 0 < p.burst_time ∧ p.burst_time ≤ q

theorem rr_runAux_done (q : Int) :
    ∀ (fuel : Nat) (t : Int) (rem comp out : List Process),
      (∀ p ∈ rem, 0 < p.burst_time) → (∀ p ∈ comp, rrDone q p) →
      RoundRobin.runAux q fuel t rem comp = some out →
      ∀ p ∈ out, rrDone q p := by
  intro fuel
  induction fuel with
  | zero =>
    intro t rem comp out hrem hcomp hrun
    cases rem with
    | nil =>
      rw [RoundRobin.runAux] at hrun
      cases hrun
      exact hcomp
    | cons p rest => rw [RoundRobin.runAux] at hrun; cases hrun
  | succ fuel ih =>
    intro t rem comp out hrem hcomp hrun
    cases rem with
    | nil =>
      rw [RoundRobin.runAux] at hrun
      cases hrun
      exact hcomp
    | cons p rest =>
      rw [RoundRobin.runAux] at hrun
      by_cases hb : q < p.burst_time
      · rw [if_pos hb] at hrun
        refine ih _ _ _ _ ?_ hcomp hrun
        intro x hx
        rcases List.mem_append.mp hx with hx1 | hx2
        · exact hrem x (List.mem_cons_of_mem _ hx1)
        · rcases List.mem_singleton.mp hx2 with rfl
          show 0 < p.burst_time - q
          omega
      · rw [if_neg hb] at hrun
        refine ih _ _ _ _ (fun x hx => hrem x (List.mem_cons_of_mem _ hx)) ?_ hrun
        intro x hx
        rcases List.mem_append.mp hx with hx1 | hx2
        · exact hcomp x hx1
        · rcases List.mem_singleton.mp hx2 with rfl
          refine ⟨clampClock t p.arrival_time, rfl, rfl, le_clampClock_right _ _, ?_, ?_⟩
          · show 0 < p.burst_time
            exact hrem p (List.mem_cons_self _ _)
          · show p.burst_time ≤ q
            exact not_lt.mp hb

theorem rr_runAux_ids (q : Int) :
    ∀ (fuel : Nat) (t : Int) (rem comp out : List Process),
      RoundRobin.runAux q fuel t rem comp = some out →
      (out.map Process.process_id).Perm
        (comp.map Process.process_id ++ rem.map Process.process_id) := by
  intro fuel
  induction fuel with
  | zero =>
    intro t rem comp out hrun
    cases rem with
    | nil =>
      rw [RoundRobin.runAux] at hrun
      cases hrun
      simp
    | cons p rest => rw [RoundRobin.runAux] at hrun; cases hrun
  | succ fuel ih =>
    intro t rem comp out hrun
    cases rem with
    | nil =>
      rw [RoundRobin.runAux] at hrun
      cases hrun
      simp
    | cons p rest =>
      rw [RoundRobin.runAux] at hrun
      by_cases hb : q < p.burst_time
      · rw [if_pos hb] at hrun
        have h1 := ih _ _ _ _ hrun
        refine h1.trans ?_
        simp only [List.map_append, List.map_cons, List.map_nil]
        refine List.Perm.append_left _ ?_
        exact List.perm_append_singleton _ _
      · rw [if_neg hb] at hrun
        have h1 := ih _ _ _ _ hrun
        refine h1.trans ?_
        simp [List.append_assoc]

/-- Termination measure for the round-robin loop: number of pending jobs
plus their total remaining burst. -/
def rrMeasure (rem : List Process) : Nat :=
  rem.length + (rem.map fun p => p.burst_time.toNat).sum

theorem rr_runAux_adequate (q : Int) (hq : 0 < q) :
    ∀ (fuel : Nat) (t : Int) (rem comp : List Process),
      (∀ p ∈ rem, 0 < p.burst_time) → rrMeasure rem ≤ fuel →
      ∃ out, RoundRobin.runAux q fuel t rem comp = some out := by
  intro fuel
  induction fuel with
  | zero =>
    intro t rem comp hrem hfuel
    cases rem with
    | nil => exact ⟨comp, by rw [RoundRobin.runAux]⟩
    | cons p rest => simp [rrMeasure] at hfuel
  | succ fuel ih =>
    intro t rem comp hrem hfuel
    cases rem with
    | nil => exact ⟨comp, by rw [RoundRobin.runAux]⟩
    | cons p rest =>
      rw [RoundRobin.runAux]
      have hp : 0 < p.burst_time := hrem p (List.mem_cons_self _ _)
      by_cases hb : q < p.burst_time
      · rw [if_pos hb]
        refine ih _ _ _ ?_ ?_
        · intro x hx
          rcases List.mem_append.mp hx with hx1 | hx2
          · exact hrem x (List.mem_cons_of_mem _ hx1)
          · rcases List.mem_singleton.mp hx2 with rfl
            simp only []
            omega
        · simp only [rrMeasure, List.map_append, List.sum_append, List.length_append,
            List.map_cons, List.sum_cons, List.length_cons, List.map_nil,
            List.sum_nil, List.length_nil] at hfuel ⊢
          omega
      · rw [if_neg hb]
        refine ih _ _ _ (fun x hx => hrem x (List.mem_cons_of_mem _ hx)) ?_
        simp only [rrMeasure, List.map_cons, List.sum_cons, List.length_cons] at hfuel ⊢
        omega

theorem rr_runAux_eq_fcfs (q : Int) :
    ∀ (fuel : Nat) (t : Int) (rem comp : List Process),
      (∀ p ∈ rem, p.burst_time ≤ q) → rem.length < fuel →
      RoundRobin.runAux q fuel t rem comp = some (comp ++ FCFS.runAux t rem) := by
  intro fuel
  induction fuel with
  | zero => intro t rem comp _ hfuel; omega
  | succ fuel ih =>
    intro t rem comp hrem hfuel
    cases rem with
    | nil => rw [RoundRobin.runAux]; simp [FCFS.runAux]
    | cons p rest =>
      rw [RoundRobin.runAux]
      have hb : ¬ q < p.burst_time := not_lt.mpr (hrem p (List.mem_cons_self _ _))
      rw [if_neg hb]
      rw [ih _ rest _ (fun x hx => hrem x (List.mem_cons_of_mem _ hx))
        (by simpa using Nat.lt_of_succ_lt_succ (by simpa using hfuel))]
      simp [FCFS.runAux]

theorem srtf_runAux_subperm : ∀ (fuel : Nat) (t : Int) (rem : List Process),
    rem.length ≤ fuel →
    ((SRTF.runAux fuel t rem).map Process.process_id).Subperm
      (rem.map Process.process_id) := by
  intro fuel
  induction fuel with
  | zero => intro t rem _; simp [SRTF.runAux]
  | succ fuel ih =>
    intro t rem hlen
    rw [SRTF.runAux]
    cases h : List.insertionSort sjfR rem with
    | nil => simp
    | cons p rest =>
      have hsort : rem.length = rest.length + 1 := by
        have hl := congrArg List.length h
        rwa [List.length_insertionSort, List.length_cons] at hl
      simp only [List.map_cons]
      have hperm : ((p :: rest).map Process.process_id).Perm
          (rem.map Process.process_id) :=
        (h ▸ (List.perm_insertionSort sjfR rem)).map Process.process_id
      refine List.Subperm.trans ?_ hperm.subperm
      simp only [List.map_cons]
      refine (List.subperm_cons _).mpr ?_
      set fin := clampClock t p.arrival_time + p.burst_time with hfin
      set rest2 := rest.map fun r =>
        if r.arrival_time ≤ fin
        then { r with burst_time := r.burst_time - p.burst_time } else r with hrest2
      have hlen2 : (rest2.filter fun r => 0 < r.burst_time).length ≤ fuel := by
        have h1 := List.length_filter_le (fun r => 0 < r.burst_time) rest2
        have h2 : rest2.length = rest.length := by simp [hrest2]
        omega
      have h1 := ih fin (rest2.filter fun r => 0 < r.burst_time) hlen2
      refine h1.trans ?_
      have h2 : ((rest2.filter fun r => 0 < r.burst_time).map
          Process.process_id).Sublist (rest2.map Process.process_id) :=
        (List.filter_sublist rest2).map Process.process_id
      have h3 : rest2.map Process.process_id = rest.map Process.process_id := by
        rw [hrest2, List.map_map]
        refine List.map_congr_left ?_
        intro r _
        by_cases hc : r.arrival_time ≤ fin <;> simp [hc, Function.comp]
      rw [h3] at h2
      exact h2.subperm

theorem srtf_runAux_mem : ∀ (fuel : Nat) (t : Int) (rem : List Process),
    rem.length ≤ fuel → (∀ p ∈ rem, 0 < p.burst_time) →
    ∀ p' ∈ SRTF.runAux fuel t rem, ∃ s,
      p'.start_time = some s ∧
      p'.completion_time = some (s + p'.burst_time) ∧
      p'.arrival_time ≤ s ∧ 0 < p'.burst_time := by
  intro fuel
  induction fuel with
  | zero => intro t rem _ _ p' hp'; simp [SRTF.runAux] at hp'
  | succ fuel ih =>
    intro t rem hlen hrem p' hp'
    rw [SRTF.runAux] at hp'
    cases h : List.insertionSort sjfR rem with
    | nil => rw [h] at hp'; simp at hp'
    | cons p rest =>
      rw [h] at hp'
      have hsort : rem.length = rest.length + 1 := by
        have hl := congrArg List.length h
        rwa [List.length_insertionSort, List.length_cons] at hl
      have hpmem : p ∈ rem :=
        (List.perm_insertionSort sjfR rem).mem_iff.mp (h ▸ List.mem_cons_self p rest)
      rcases List.mem_cons.mp hp' with rfl | hmem
      · refine ⟨clampClock t p.arrival_time, rfl, rfl, le_clampClock_right _ _, ?_⟩
        show 0 < p.burst_time
        exact hrem p hpmem
      · set fin := clampClock t p.arrival_time + p.burst_time with hfin
        set rest2 := rest.map fun r =>
          if r.arrival_time ≤ fin
          then { r with burst_time := r.burst_time - p.burst_time } else r with hrest2
        have hlen2 : (rest2.filter fun r => 0 < r.burst_time).length ≤ fuel := by
          have h1 := List.length_filter_le (fun r => 0 < r.burst_time) rest2
          have h2 : rest2.length = rest.length := by simp [hrest2]
          omega
        refine ih fin _ hlen2 ?_ p' hmem
        intro x hx
        simpa using List.of_mem_filter hx

/-- P1 of the spec scenarios: arrival 0, burst 5. -/
def jobA : Process := { process_id := 1, arrival_time := 0, burst_time := 5 }

/-- P2 of the spec scenarios: arrival 1, burst 3. -/
def jobB : Process := { process_id := 2, arrival_time := 1, burst_time := 3 }

/-- P3 of the SJF spec scenario: arrival 2, burst 8. -/
def jobC : Process := { process_id := 3, arrival_time := 2, burst_time := 8 }

/-- A second job with the same arrival and burst as `jobA`, used to make
SRTF drop a job. -/
def jobD : Process := { process_id := 2, arrival_time := 0, burst_time := 5 }

/-- A one-unit job, used for the quantum-0 divergence of round robin. -/
def jobU : Process := { process_id := 1, arrival_time := 0, burst_time := 1 }

/-- The state `jobU` reaches after its first dispatch under quantum 0:
start time recorded, burst unchanged.  The round-robin loop maps this
state to itself. -/
def jobU1 : Process :=
  { process_id := 1, arrival_time := 0, burst_time := 1, priority := none,
    start_time := some 0, completion_time := none }

theorem rr_runAux_none_of_fixed (q : Int) (p : Process)
    (hb : q < p.burst_time)
    (hfix : ({ p with start_time := some (clampClock 0 p.arrival_time),
                      burst_time := p.burst_time - q } : Process) = p)
    (ht : clampClock 0 p.arrival_time + q = 0) :
    ∀ fuel, RoundRobin.runAux q fuel 0 [p] [] = none := by
  intro fuel
  induction fuel with
  | zero => rw [RoundRobin.runAux]
  | succ fuel ih =>
    rw [RoundRobin.runAux, if_pos hb, List.nil_append, hfix, ht]
    exact ih

theorem rr_quantum_zero_loops1 :
    ∀ fuel, RoundRobin.runAux 0 fuel 0 [jobU1] [] = none :=
  rr_runAux_none_of_fixed 0 jobU1 (by decide) (by decide) (by decide)

theorem rr_quantum_zero_loops :
    ∀ fuel, RoundRobin.runAux 0 fuel 0 [jobU] [] = none := by
  intro fuel
  cases fuel with
  | zero => rw [RoundRobin.runAux]
  | succ fuel =>
    rw [RoundRobin.runAux, if_pos (show (0:Int) < jobU.burst_time by decide),
      List.nil_append,
      show ({ jobU with start_time := some (clampClock 0 jobU.arrival_time),
                        burst_time := jobU.burst_time - 0 } : Process) = jobU1
        by decide,
      show clampClock 0 jobU.arrival_time + 0 = (0:Int) by decide]
    exact rr_quantum_zero_loops1 fuel

/-- Timing sanity of a completed job: both times are set, the start time
is at least the arrival time, and the completion time is at least the
start time. -/
def timingOk (p : Process) : Prop :=
  ∃ s c, p.start_time = some s ∧ p.completion_time = some c ∧
    p.arrival_time ≤ s ∧ s ≤ c

theorem timingOk_of_shape {p : Process} {s : Int} (harr : p.arrival_time ≤ s)
    (hb : 0 ≤ p.burst_time) :
    timingOk { p with start_time := some s,
                      completion_time := some (s + p.burst_time) } :=
  ⟨s, s + p.burst_time, rfl, rfl, harr, by omega⟩

/-- Completed job records for the concrete scenarios. -/
def jobAdoneF : Process :=
  { process_id := 1, arrival_time := 0, burst_time := 5, priority := none,
    start_time := some 0, completion_time := some 5 }

def jobAdoneRR : Process :=
  { process_id := 1, arrival_time := 0, burst_time := 1, priority := none,
    start_time := some 4, completion_time := some 5 }

def jobAdoneRR2 : Process :=
  { process_id := 1, arrival_time := 0, burst_time := 1, priority := none,
    start_time := some 7, completion_time := some 8 }

def jobBdoneRR : Process :=
  { process_id := 2, arrival_time := 1, burst_time := 1, priority := none,
    start_time := some 6, completion_time := some 7 }

def jobBdoneS : Process :=
  { process_id := 2, arrival_time := 1, burst_time := 3, priority := none,
    start_time := some 1, completion_time := some 4 }

def jobAdoneS : Process :=
  { process_id := 1, arrival_time := 0, burst_time := 5, priority := none,
    start_time := some 4, completion_time := some 9 }

def jobCdoneS : Process :=
  { process_id := 3, arrival_time := 2, burst_time := 8, priority := none,
    start_time := some 9, completion_time := some 17 }

theorem mapM_option_eq_map {α β : Type} (f : α → Option β) (g : α → β) :
    ∀ l : List α, (∀ a ∈ l, f a = some (g a)) → l.mapM f = some (l.map g) := by
  intro l
  induction l with
  | nil => intro _; rfl
  | cons a l ih =>
    intro h
    rw [List.mapM_cons, h a (List.mem_cons_self _ _),
      ih (fun x hx => h x (List.mem_cons_of_mem _ hx))]
    rfl

/-- Reachability between states of the `RoundRobin.run` loop
(`os1.py` lines 84-96).  A state is (clock, FIFO of pending jobs,
completed list); the two constructors are the two branches of the loop
body, with exactly the successor states of `RoundRobin.runAux`
(see `rr_runAux_reaches`).  Every intermediate point of a run is a state
reachable from the initial one. -/
inductive RRReach (q : Int) :
    Int × List Process × List Process → Int × List Process × List Process → Prop
  | refl (s : Int × List Process × List Process) : RRReach q s s
  | requeue {t : Int} {p : Process} {rest comp : List Process}
      {s2 : Int × List Process × List Process}
      (hb : q < p.burst_time)
      (h : RRReach q
        (clampClock t p.arrival_time + q,
         rest ++ [{ p with start_time := some (clampClock t p.arrival_time), burst_time := p.burst_time - q }],
         comp) s2) :
      RRReach q (t, p :: rest, comp) s2
  | complete {t : Int} {p : Process} {rest comp : List Process}
      {s2 : Int × List Process × List Process}
      (hb : ¬ q < p.burst_time)
      (h : RRReach q
        (clampClock t p.arrival_time + p.burst_time, rest,
         comp ++ [{ p with start_time := some (clampClock t p.arrival_time), completion_time := some (clampClock t p.arrival_time + p.burst_time) }]) s2) :
      RRReach q (t, p :: rest, comp) s2

/-- `RRReach` is the transition relation of `RoundRobin.runAux`: a run
that returns `some out` passes from its initial state to the final state
(empty FIFO, completed list `out`) through `RRReach`. -/
theorem rr_runAux_reaches (q : Int) :
    ∀ (fuel : Nat) (t : Int) (rem comp out : List Process),
      RoundRobin.runAux q fuel t rem comp = some out →
      ∃ t2, RRReach q (t, rem, comp) (t2, [], out) := by
  intro fuel
  induction fuel with
  | zero =>
    intro t rem comp out hrun
    cases rem with
    | nil =>
      rw [RoundRobin.runAux] at hrun
      cases hrun
      exact ⟨t, RRReach.refl _⟩
    | cons p rest => rw [RoundRobin.runAux] at hrun; cases hrun
  | succ fuel ih =>
    intro t rem comp out hrun
    cases rem with
    | nil =>
      rw [RoundRobin.runAux] at hrun
      cases hrun
      exact ⟨t, RRReach.refl _⟩
    | cons p rest =>
      rw [RoundRobin.runAux] at hrun
      by_cases hb : q < p.burst_time
      · rw [if_pos hb] at hrun
        obtain ⟨t2, hr⟩ := ih _ _ _ _ hrun
        exact ⟨t2, RRReach.requeue hb hr⟩
      · rw [if_neg hb] at hrun
        obtain ⟨t2, hr⟩ := ih _ _ _ _ hrun
        exact ⟨t2, RRReach.complete hb hr⟩

/-- Invariant of the round-robin loop, at every reachable state: pending
jobs keep a strictly positive remaining time, completed jobs keep a
strictly positive remaining time of at most the quantum and carry a
completion time. -/
theorem rr_reach_pos (q : Int) :
    ∀ s s2 : Int × List Process × List Process, RRReach q s s2 →
      (∀ p ∈ s.2.1, 0 < p.burst_time) →
      (∀ p ∈ s.2.2, 0 < p.burst_time ∧ p.burst_time ≤ q ∧
        p.completion_time.isSome) →
      (∀ p ∈ s2.2.1, 0 < p.burst_time) ∧
      (∀ p ∈ s2.2.2, 0 < p.burst_time ∧ p.burst_time ≤ q ∧
        p.completion_time.isSome) := by
  intro s s2 h
  induction h with
  | refl s => intro h1 h2; exact ⟨h1, h2⟩
  | @requeue t p rest comp s2 hb hr ih =>
    intro h1 h2
    refine ih ?_ h2
    intro x hx
    rcases List.mem_append.mp hx with hx1 | hx2
    · exact h1 x (List.mem_cons_of_mem _ hx1)
    · rcases List.mem_singleton.mp hx2 with rfl
      show 0 < p.burst_time - q
      omega
  | @complete t p rest comp s2 hb hr ih =>
    intro h1 h2
    refine ih (fun x hx => h1 x (List.mem_cons_of_mem _ hx)) ?_
    intro x hx
    rcases List.mem_append.mp hx with hx1 | hx2
    · exact h2 x hx1
    · rcases List.mem_singleton.mp hx2 with rfl
      refine ⟨?_, ?_, rfl⟩
      · show 0 < p.burst_time
        exact h1 p (List.mem_cons_self _ _)
      · show p.burst_time ≤ q
        exact not_lt.mp hb

/-- C1 counterexample: SRTF does not return a permutation of the input.
On two jobs that both arrive at 0 with burst 5, the second job's
remaining time is driven to 0 by the after-completion bookkeeping and the
job is dropped: the run returns only the first job. -/
theorem C1_counterexample :
    (SRTF.run [jobA, jobD]).map Process.process_id = [1] ∧
    ¬ (([1] : List Int).Perm ([jobA, jobD].map Process.process_id)) := by
  constructor
  · decide
  · decide

/-- C1 (amended): for FCFS, SJF, Priority and RoundRobin the returned
sequence is a permutation of the input jobs (same multiset of
identifiers, same count), and every returned job satisfies
completion time ≥ start time ≥ arrival time; for SRTF the returned
identifiers form only a sub-multiset of the input identifiers (jobs whose
remaining time reaches zero through the bookkeeping are dropped), with
the same timing inequalities for every returned job. -/
theorem C1_perm_and_timing (ps : List Process) (q : Int) (hq : 0 < q)
    (harr : ∀ p ∈ ps, 0 ≤ p.arrival_time)
    (hburst : ∀ p ∈ ps, 0 < p.burst_time) :
    ((FCFS.run ps).map Process.process_id).Perm (ps.map Process.process_id) ∧
    (∀ p ∈ FCFS.run ps, timingOk p) ∧
    ((SJF.run ps).map Process.process_id).Perm (ps.map Process.process_id) ∧
    (∀ p ∈ SJF.run ps, timingOk p) ∧
    (∀ out, Priority.run ps = some out →
      ((out.map Process.process_id).Perm (ps.map Process.process_id) ∧
       ∀ p ∈ out, timingOk p)) ∧
    (∀ out, RoundRobin.run q ps = some out →
      ((out.map Process.process_id).Perm (ps.map Process.process_id) ∧
       ∀ p ∈ out, timingOk p)) ∧
    ((SRTF.run ps).map Process.process_id).Subperm (ps.map Process.process_id) ∧
    (∀ p ∈ SRTF.run ps, timingOk p) := by
  refine ⟨?_, ?_, ?_, ?_, ?_, ?_, ?_, ?_⟩
  · exact (fcfs_runAux_ids 0 ps) ▸ List.Perm.refl _
  · intro p' hp'
    obtain ⟨p, hp, s, rfl, hs⟩ := fcfs_runAux_mem 0 ps p' hp'
    exact timingOk_of_shape hs (le_of_lt (hburst p hp))
  · exact ids_of_eraseTimes_perm (sjf_runAux_perm ps.length 0 ps le_rfl)
  · intro p' hp'
    obtain ⟨p, hp, s, rfl, hs⟩ := sjf_runAux_mem ps.length 0 ps le_rfl p' hp'
    exact timingOk_of_shape hs (le_of_lt (hburst p hp))
  · intro out hout
    rw [Priority.run] at hout
    by_cases hg : ((ps.any fun p => p.priority.isSome) &&
        (ps.any fun p => p.priority.isNone)) = true
    · rw [if_pos hg] at hout; cases hout
    · rw [if_neg hg] at hout
      obtain rfl := (Option.some.inj hout).symm
      constructor
      · exact ids_of_eraseTimes_perm (prio_runAux_perm ps.length 0 ps le_rfl)
      · intro p' hp'
        obtain ⟨p, hp, s, rfl, hs⟩ := prio_runAux_mem ps.length 0 ps le_rfl p' hp'
        exact timingOk_of_shape hs (le_of_lt (hburst p hp))
  · intro out hout
    constructor
    · have h1 := rr_runAux_ids q (RoundRobin.fuelFor ps) 0 ps [] out hout
      simpa using h1
    · intro p hp
      have h1 := rr_runAux_done q (RoundRobin.fuelFor ps) 0 ps [] out hburst
        (by intro x hx; cases hx) hout p hp
      obtain ⟨s, h2, h3, h4, h5, _⟩ := h1
      exact ⟨s, s + p.burst_time, h2, h3, h4, by omega⟩
  · exact srtf_runAux_subperm ps.length 0 ps le_rfl
  · intro p' hp'
    obtain ⟨s, h1, h2, h3, h4⟩ := srtf_runAux_mem ps.length 0 ps le_rfl hburst p' hp'
    exact ⟨s, s + p'.burst_time, h1, h2, h3, by omega⟩

/-- C1 witness: the FCFS permutation statement at a concrete input. -/
theorem C1_witness :
    ((FCFS.run [jobA]).map Process.process_id).Perm
      ([jobA].map Process.process_id) :=
  (C1_perm_and_timing [jobA] 2 (by decide) (by decide) (by decide)).1

/-- C2: evaluation of `RoundRobin.run` with quantum 2 on
P1(arrival 0, burst 5), P2(arrival 1, burst 3), the scenario of the
claim.  The completion times agree with the claim (P2 = 7, P1 = 8), but
line 88 of `os1.py` overwrites `start_time` at *every* dispatch, so the
run ends with start times P2 = 6, P1 = 7 instead of the claimed first
dispatch values P1 = 0, P2 = 2. -/
theorem C2_rr_start_overwritten :
    RoundRobin.run 2 [jobA, jobB] = some [jobBdoneRR, jobAdoneRR2] ∧
    jobBdoneRR.start_time = some 6 ∧ jobAdoneRR2.start_time = some 7 ∧
    jobBdoneRR.completion_time = some 7 ∧
    jobAdoneRR2.completion_time = some 8 := by
  refine ⟨by decide, rfl, rfl, rfl, rfl⟩

/-- C3 counterexample: a job completed by round robin keeps a non-zero
remaining service time.  With quantum 2, P1(0,5) completes at time 5
with `burst_time` still 1: the code sets the completion time but never
zeroes the remaining time, so "completed iff remaining = 0" fails. -/
theorem C3_counterexample :
    RoundRobin.run 2 [jobA] = some [jobAdoneRR] ∧
    jobAdoneRR.completion_time.isSome ∧ jobAdoneRR.burst_time ≠ 0 := by
  refine ⟨by decide, rfl, by decide⟩

/-- C3 (amended): at every point of every run on valid inputs, every
job's remaining service time is ≥ 0 — FCFS, SJF and Priority never
modify it (every completed job carries an input job's burst unchanged
and positive); RoundRobin keeps every pending and every completed job's
remaining time strictly positive at every reachable state of its loop;
SRTF's completed jobs keep a positive remaining time, and its
retroactive subtraction (`os1.py` line 114) removes at most each pending
job's remaining time — the chosen job's burst is minimal — so a
remaining time can reach exactly 0 only for a job that is then dropped,
and never goes below 0.  But "a job is completed iff its remaining
service time equals 0" fails, and RoundRobin does not set the remaining
time to 0 at the completing dispatch: a completed round-robin job
retains a positive residue of at most the quantum, its completion time
being its final start time plus that residue. -/
theorem C3_remaining_invariant (q : Int) (ps : List Process) (hq : 0 < q)
    (hburst : ∀ p ∈ ps, 0 < p.burst_time) :
    (∀ p2 ∈ FCFS.run ps, ∃ p ∈ ps,
      p2.burst_time = p.burst_time ∧ 0 < p2.burst_time) ∧
    (∀ p2 ∈ SJF.run ps, ∃ p ∈ ps,
      p2.burst_time = p.burst_time ∧ 0 < p2.burst_time) ∧
    (∀ out, Priority.run ps = some out → ∀ p2 ∈ out, ∃ p ∈ ps,
      p2.burst_time = p.burst_time ∧ 0 < p2.burst_time) ∧
    (∀ t2 rem2 comp2, RRReach q (0, ps, []) (t2, rem2, comp2) →
      (∀ p ∈ rem2, 0 < p.burst_time) ∧
      (∀ p ∈ comp2, 0 < p.burst_time ∧ p.burst_time ≤ q ∧
        p.completion_time.isSome)) ∧
    (∀ out, RoundRobin.run q ps = some out → ∀ p ∈ out, ∃ s,
      p.start_time = some s ∧ p.completion_time = some (s + p.burst_time) ∧
      0 < p.burst_time ∧ p.burst_time ≤ q) ∧
    (∀ p2 ∈ SRTF.run ps, 0 < p2.burst_time) ∧
    (∀ (rem2 : List Process) (p : Process) (rest : List Process),
      List.insertionSort sjfR rem2 = p :: rest →
      ∀ r ∈ rest, 0 ≤ r.burst_time - p.burst_time) := by
  refine ⟨?_, ?_, ?_, ?_, ?_, ?_, ?_⟩
  · intro p2 hp2
    obtain ⟨p, hp, s, rfl, _⟩ := fcfs_runAux_mem 0 ps p2 hp2
    exact ⟨p, hp, rfl, hburst p hp⟩
  · intro p2 hp2
    obtain ⟨p, hp, s, rfl, _⟩ := sjf_runAux_mem ps.length 0 ps le_rfl p2 hp2
    exact ⟨p, hp, rfl, hburst p hp⟩
  · intro out hout p2 hp2
    rw [Priority.run] at hout
    by_cases hg : ((ps.any fun p => p.priority.isSome) &&
        (ps.any fun p => p.priority.isNone)) = true
    · rw [if_pos hg] at hout; cases hout
    · rw [if_neg hg] at hout
      obtain rfl := (Option.some.inj hout).symm
      obtain ⟨p, hp, s, rfl, _⟩ := prio_runAux_mem ps.length 0 ps le_rfl p2 hp2
      exact ⟨p, hp, rfl, hburst p hp⟩
  · intro t2 rem2 comp2 hreach
    exact rr_reach_pos q (0, ps, []) (t2, rem2, comp2) hreach hburst
      (by intro x hx; cases hx)
  · intro out hout p hp
    obtain ⟨s, h2, h3, h4, h5, h6⟩ := rr_runAux_done q (RoundRobin.fuelFor ps)
      0 ps [] out hburst (by intro x hx; cases hx) hout p hp
    exact ⟨s, h2, h3, h5, h6⟩
  · intro p2 hp2
    obtain ⟨s, _, _, _, h4⟩ := srtf_runAux_mem ps.length 0 ps le_rfl hburst p2 hp2
    exact h4
  · intro rem2 p rest h r hr
    have hmem : r ∈ rem2 := (List.perm_insertionSort sjfR rem2).mem_iff.mp
      (h ▸ List.mem_cons_of_mem _ hr)
    have h2 := sjf_sorted_head_min rem2 p rest h r hmem
    unfold sjfR at h2
    rcases h2 with h3 | ⟨h3, _⟩ <;> omega

/-- C3 witness: the completed-output part of the amended statement at
quantum 2 on P1(0,5). -/
theorem C3_witness :
    ∃ s, jobAdoneRR.start_time = some s ∧
      jobAdoneRR.completion_time = some (s + jobAdoneRR.burst_time) ∧
      0 < jobAdoneRR.burst_time ∧ jobAdoneRR.burst_time ≤ 2 :=
  (C3_remaining_invariant 2 [jobA] (by decide) (by decide)).2.2.2.2.1
    [jobAdoneRR] (by decide) jobAdoneRR (by decide)

/-- C4: for every job completed by one of the non-preemptive policies
(FCFS, SJF, Priority), the completion time equals the start time plus the
original service time of the corresponding input job, exactly. -/
theorem C4_nonpreemptive_exact (ps : List Process) :
    (∀ p' ∈ FCFS.run ps, ∃ p ∈ ps, p'.burst_time = p.burst_time ∧
       ∃ s, p'.start_time = some s ∧
         p'.completion_time = some (s + p.burst_time)) ∧
    (∀ p' ∈ SJF.run ps, ∃ p ∈ ps, p'.burst_time = p.burst_time ∧
       ∃ s, p'.start_time = some s ∧
         p'.completion_time = some (s + p.burst_time)) ∧
    (∀ out, Priority.run ps = some out → ∀ p' ∈ out, ∃ p ∈ ps,
       p'.burst_time = p.burst_time ∧ ∃ s, p'.start_time = some s ∧
         p'.completion_time = some (s + p.burst_time)) := by
  refine ⟨?_, ?_, ?_⟩
  · intro p' hp'
    obtain ⟨p, hp, s, rfl, _⟩ := fcfs_runAux_mem 0 ps p' hp'
    exact ⟨p, hp, rfl, s, rfl, rfl⟩
  · intro p' hp'
    obtain ⟨p, hp, s, rfl, _⟩ := sjf_runAux_mem ps.length 0 ps le_rfl p' hp'
    exact ⟨p, hp, rfl, s, rfl, rfl⟩
  · intro out hout p' hp'
    rw [Priority.run] at hout
    by_cases hg : ((ps.any fun p => p.priority.isSome) &&
        (ps.any fun p => p.priority.isNone)) = true
    · rw [if_pos hg] at hout; cases hout
    · rw [if_neg hg] at hout
      obtain rfl := (Option.some.inj hout).symm
      obtain ⟨p, hp, s, rfl, _⟩ := prio_runAux_mem ps.length 0 ps le_rfl p' hp'
      exact ⟨p, hp, rfl, s, rfl, rfl⟩

/-- C4 witness: the FCFS part at the one-job input P1(0,5). -/
theorem C4_witness :
    ∃ p ∈ [jobA], jobAdoneF.burst_time = p.burst_time ∧
      ∃ s, jobAdoneF.start_time = some s ∧
        jobAdoneF.completion_time = some (s + p.burst_time) :=
  (C4_nonpreemptive_exact [jobA]).1 jobAdoneF (by decide)

/-- C5: SJF selects, at each step, among all not-yet-dispatched jobs and
independently of the clock, a job whose (burst time, arrival time) is
lexicographically least — smallest service time, ties broken by smaller
arrival time; and on P1(0,5), P2(1,3), P3(2,8) the run is exactly
P2 from 1 to 4, P1 from 4 to 9, P3 from 9 to 17. -/
theorem C5_sjf_selection :
    (∀ (rem : List Process) (p : Process) (rest : List Process),
       List.insertionSort sjfR rem = p :: rest →
       ∀ x ∈ rem, p.burst_time < x.burst_time ∨
         (p.burst_time = x.burst_time ∧ p.arrival_time ≤ x.arrival_time)) ∧
    SJF.run [jobA, jobB, jobC] = [jobBdoneS, jobAdoneS, jobCdoneS] := by
  constructor
  · intro rem p rest h x hx
    exact sjf_sorted_head_min rem p rest h x hx
  · decide

/-- C5 witness: the selection property at the concrete remaining set
{P1(0,5), P2(1,3)}, whose sort puts P2 first. -/
theorem C5_witness :
    jobB.burst_time < jobA.burst_time ∨
      (jobB.burst_time = jobA.burst_time ∧
       jobB.arrival_time ≤ jobA.arrival_time) :=
  C5_sjf_selection.1 [jobA, jobB] jobB [jobA] (by decide) jobA (by decide)

/-- A job with a negative arrival time — invalid input per the spec. -/
def jobNeg : Process := { process_id := 1, arrival_time := -1, burst_time := 3 }

def jobNegDone : Process :=
  { process_id := 1, arrival_time := -1, burst_time := 3, priority := none,
    start_time := some 0, completion_time := some 3 }

/-- A job with a zero (non-positive) service time — invalid input. -/
def jobZeroBurst : Process :=
  { process_id := 1, arrival_time := 0, burst_time := 0 }

def jobZeroBurstDone : Process :=
  { process_id := 1, arrival_time := 0, burst_time := 0, priority := none,
    start_time := some 0, completion_time := some 0 }

/-- A job without a priority, handed to the Priority scheduler. -/
def jobP : Process := { process_id := 1, arrival_time := 0, burst_time := 2 }

def jobPdone : Process :=
  { process_id := 1, arrival_time := 0, burst_time := 2, priority := none,
    start_time := some 0, completion_time := some 2 }

/-- C6 counterexample: the engine performs no eager rejection — FCFS
happily produces timings for a job with a negative arrival time. -/
theorem C6_counterexample : FCFS.run [jobNeg] = [jobNegDone] := by decide

/-- C6 (amended): the engine performs no input validation at all.  Jobs
with negative arrival times or non-positive service times are processed
and given timings; a non-positive RoundRobin quantum makes the run loop
forever (no fuel bound suffices) rather than fail eagerly; and a Priority
run whose jobs all lack a priority produces timings — only a mix of
present and absent priorities fails, and then lazily inside sorting. -/
theorem C6_no_validation :
    FCFS.run [jobNeg] = [jobNegDone] ∧
    FCFS.run [jobZeroBurst] = [jobZeroBurstDone] ∧
    (∀ fuel, RoundRobin.runAux 0 fuel 0 [jobU] [] = none) ∧
    RoundRobin.run 0 [jobU] = none ∧
    Priority.run [jobP] = some [jobPdone] :=
  ⟨by decide, by decide, rr_quantum_zero_loops, by decide, by decide⟩

/-- C7: with a positive quantum and positive service times, the
round-robin loop reaches the empty FIFO in finitely many iterations (the
fuel `RoundRobin.fuelFor` suffices and the run returns a result).  The
other four policies are defined by structurally terminating recursions in
this embedding, mirroring that their loops complete exactly one job per
iteration (FCFS, SJF, Priority) or strictly shrink the remaining list
(SRTF). -/
theorem C7_rr_terminates (q : Int) (ps : List Process) (hq : 0 < q)
    (hburst : ∀ p ∈ ps, 0 < p.burst_time) :
    ∃ out, RoundRobin.run q ps = some out := by
  refine rr_runAux_adequate q hq (RoundRobin.fuelFor ps) 0 ps [] hburst ?_
  simp only [rrMeasure, RoundRobin.fuelFor]
  omega

/-- C7 witness: termination at quantum 2 on P1(0,5). -/
theorem C7_witness : ∃ out, RoundRobin.run 2 [jobA] = some out :=
  C7_rr_terminates 2 [jobA] (by decide) (by decide)

/-- C8: on a non-empty sequence of completed jobs (both times set), the
metrics functions return the mean of (start − arrival) respectively
(completion − arrival); on the empty sequence both fail (`none`,
Python's `ZeroDivisionError`). -/
theorem C8_metrics (ps : List Process) :
    (calculate_average_waiting_time [] = none ∧
     calculate_average_turnaround_time [] = none) ∧
    (ps ≠ [] →
     (∀ p ∈ ps, p.start_time.isSome ∧ p.completion_time.isSome) →
     calculate_average_waiting_time ps =
       some (((ps.map fun p =>
           ((p.start_time.getD 0 - p.arrival_time : Int) : ℚ)).sum)
         / (ps.length : ℚ)) ∧
     calculate_average_turnaround_time ps =
       some (((ps.map fun p =>
           ((p.completion_time.getD 0 - p.arrival_time : Int) : ℚ)).sum)
         / (ps.length : ℚ))) := by
  refine ⟨⟨rfl, rfl⟩, ?_⟩
  intro hne hsome
  have hf : ∀ p ∈ ps,
      (p.start_time.map fun s => ((s - p.arrival_time : Int) : ℚ)) =
        some ((p.start_time.getD 0 - p.arrival_time : Int) : ℚ) := by
    intro p hp
    obtain ⟨s, hs⟩ := Option.isSome_iff_exists.mp (hsome p hp).1
    rw [hs]; rfl
  have hg : ∀ p ∈ ps,
      (p.completion_time.map fun c => ((c - p.arrival_time : Int) : ℚ)) =
        some ((p.completion_time.getD 0 - p.arrival_time : Int) : ℚ) := by
    intro p hp
    obtain ⟨c, hc⟩ := Option.isSome_iff_exists.mp (hsome p hp).2
    rw [hc]; rfl
  cases ps with
  | nil => exact absurd rfl hne
  | cons a l =>
    constructor
    · simp only [calculate_average_waiting_time]
      rw [mapM_option_eq_map _ _ _ hf]
      rfl
    · simp only [calculate_average_turnaround_time]
      rw [mapM_option_eq_map _ _ _ hg]
      rfl

/-- C8 witness: the waiting-time average of a one-job completed list. -/
theorem C8_witness :
    calculate_average_waiting_time [jobAdoneF] =
      some ((([jobAdoneF].map fun p =>
          ((p.start_time.getD 0 - p.arrival_time : Int) : ℚ)).sum)
        / (([jobAdoneF] : List Process).length : ℚ)) :=
  (((C8_metrics [jobAdoneF]).2 (by decide) (by decide)).1)

/-- C9: FCFS is unconditionally order-preserving — the output carries the
input's identifiers in the input's order — and its timings follow the
clock recurrence: each start time is max(previous completion time,
arrival time) with the clock starting at 0, each completion time is that
start plus the job's burst. -/
theorem C9_fcfs_order (ps : List Process) :
    (FCFS.run ps).map Process.process_id = ps.map Process.process_id ∧
    followsFCFS 0 (FCFS.run ps) :=
  ⟨fcfs_runAux_ids 0 ps, fcfs_runAux_follows 0 ps⟩

/-- C9 witness: order preservation at the two-job input P1, P2. -/
theorem C9_witness :
    (FCFS.run [jobA, jobB]).map Process.process_id =
      [jobA, jobB].map Process.process_id :=
  (C9_fcfs_order [jobA, jobB]).1

/-- C10: when every service time is positive and the quantum is at least
every service time, each round-robin dispatch completes its job, so
`RoundRobin.run` returns exactly `FCFS.run`'s output: same order, same
start times, same completion times. -/
theorem C10_rr_eq_fcfs (q : Int) (ps : List Process)
    (hburst : ∀ p ∈ ps, 0 < p.burst_time)
    (hq : ∀ p ∈ ps, p.burst_time ≤ q) :
    RoundRobin.run q ps = some (FCFS.run ps) := by
  have h := rr_runAux_eq_fcfs q (RoundRobin.fuelFor ps) 0 ps [] hq
    (by simp only [RoundRobin.fuelFor]; omega)
  simpa using h

/-- C10 witness: quantum 5 dominates the bursts of P1(0,5), P2(1,3). -/
theorem C10_witness :
    RoundRobin.run 5 [jobA, jobB] = some (FCFS.run [jobA, jobB]) :=
  C10_rr_eq_fcfs 5 [jobA, jobB] (by decide) (by decide)
